import Mathlib

/-!
Shallow embedding of `data_utils.py` from the PITS-MFA repository: the example
catalog filter (`TextAudioLoader._filter`), the alignment reconciliation step
of `TextAudioLoader.get_audio_text_pair`, the batch collator
(`TextAudioCollate.__call__`) and the `DistributedBucketSampler`
(`__init__`, `_create_buckets`, `_bisect`, `__iter__`).

Modelling conventions:
* Tensor entries are opaque to the code under study (it only copies, truncates
  and zero-pads them), so scalar entries are modelled as `Int`.  A 2-D tensor
  of shape `[C, F]` is a list of `C` channel rows, each a list of `F` frames;
  the waveform tensor of shape `[1, L]` is modelled as its single row.
* `torch.randperm` calls driven by the epoch-seeded `torch.Generator` are
  modelled by an oracle `rp : Nat -> Nat -> List Nat` mapping the sequential
  call index and the requested size to an index list; `torch.randperm`'s
  contract is the hypothesis that `rp i n` is a permutation of `List.range n`.
  The oracle is a pure function of the epoch seed, so `iter` is a pure
  function of `(epoch, rank)` and the fixed construction state.
* Python failures (assertion failures, `ZeroDivisionError`, out-of-range
  tensor writes, `torch` errors) are modelled with `Option`/`Except` results.
-/

namespace DataUtils

/-! ### Generic list helpers -/

/-- Structural helper for the Python extended slice: `strideAux n c l` skips
`c` elements, then keeps every `n`-th element of the remainder (used with
`n >= 1`). -/
def strideAux {α : Type} (n : Nat) : Nat → List α → List α
  | _, [] => []
  | 0, a :: rest => a :: strideAux n (n - 1) rest
  | c + 1, _ :: rest => strideAux n c rest

/-- The Python extended slice `l[start::step]`. -/
def sliceStep {α : Type} (l : List α) (start step : Nat) : List α :=
  strideAux step start l

/-- Runs a fallible function over a list, failing if any element fails;
models a Python loop whose body may raise. -/
def mapOpt {α β : Type} (f : α → Option β) : List α → Option (List β)
  | [] => some []
  | a :: t =>
    match f a, mapOpt f t with
    | some b, some bt => some (b :: bt)
    | _, _ => none

/-! ### `DistributedBucketSampler._bisect`

Recursive binary search over the ascending `boundaries` list.  Python returns
`-1` when the probed length falls outside every bucket, hence the `Int`
result. -/

/-- `DistributedBucketSampler._bisect(x, lo, hi)` with an explicit
recursion-depth fuel; every recursive call shrinks `hi - lo`, so the
`hi - lo + 1` fuel used by `bisect` below is always sufficient and the fuel
case `0` is never reached from `bisect`. -/
def bisectFuel (b : List Nat) (x : Nat) : Nat → Nat → Nat → Int
  | 0, _, _ => -1
  | fuel + 1, lo, hi =>
    if lo < hi then
      let mid := (hi + lo) / 2
      if b.getD mid 0 < x ∧ x ≤ b.getD (mid + 1) 0 then Int.ofNat mid
      else if x ≤ b.getD mid 0 then bisectFuel b x fuel lo mid
      else bisectFuel b x fuel (mid + 1) hi
    else -1

/-- `DistributedBucketSampler._bisect(x, lo, hi)`. -/
def bisect (b : List Nat) (x : Nat) (lo hi : Nat) : Int :=
  bisectFuel b x (hi - lo + 1) lo hi

/-- `_bisect(x)` with the default bounds `lo = 0`, `hi = len(boundaries) - 1`. -/
def bisectTop (b : List Nat) (x : Nat) : Int :=
  bisect b x 0 (b.length - 1)

/-! ### `TextAudioLoader._filter` -/

/-- One manifest row `(id, phonemes, durations)`; the text fields are the raw
manifest strings, modelled as character lists. -/
structure Row where
  ident : List Char
  phonemes : List Char
  durations : List Char
deriving DecidableEq, Repr

/-- The retention test of `TextAudioLoader._filter`: a row is kept iff
`min_text_len <= len(phonemes) <= max_text_len`, where `phonemes` is the raw
string of the manifest row. -/
def filterRows (rows : List Row) (minLen maxLen : Nat) : List Row :=
  rows.filter (fun r => decide (minLen ≤ r.phonemes.length ∧ r.phonemes.length ≤ maxLen))

/-- Python `str.split(" ")` (single-space separator, empties preserved), the
tokenisation `TextAudioLoader.get_phonemes` applies to the phoneme string.
Used to state the spec's notion of "number of text units". -/
def splitOnSpace : List Char → List (List Char)
  | [] => [[]]
  | c :: rest =>
    if c = ' ' then [] :: splitOnSpace rest
    else
      match splitOnSpace rest with
      | [] => [[c]]
      | t :: ts => (c :: t) :: ts

/-- Number of text units (tokens) of a raw phoneme string, per
`get_phonemes`: `len(phonemes.split(" "))`. -/
def tokenCount (s : List Char) : Nat :=
  (splitOnSpace s).length

/-! ### Alignment reconciliation (`TextAudioLoader.get_audio_text_pair`) -/

/-- The failure modes of `get_audio_text_pair` after feature loading:
the pre-reconciliation tolerance assert (`AlignmentError`), a torch
shape-mismatch on the padding copy, and the two trailing consistency
asserts (`InvariantViolation`). -/
inductive RError where
  | alignment
  | shapeMismatch
  | invariant
deriving DecidableEq, Repr

/-- `m.shape[-1]` of a 2-D tensor modelled as a list of channel rows (torch
tensors are rectangular, so the first row's length is the frame count). -/
def frames (m : List (List Int)) : Nat :=
  (m.headD []).length

/-- `abs(spec.shape[-1] - sumdur)`, the quantity the tolerance assert bounds. -/
def frameGap (sp : List (List Int)) (sumdur : Nat) : Nat :=
  (Int.ofNat (frames sp) - Int.ofNat sumdur).natAbs

/-- The reconciliation core of `get_audio_text_pair`: given the length of the
encoded phoneme sequence, the spectrogram `sp` (shape `[C, F]`), the waveform
`wav` (shape `[1, L]`, modelled by its row), the duration annotation and
`hop_length`, reproduces lines 76-92 of `data_utils.py`:
tolerance assert, truncate / zero-pad to `sum(durations)` frames
(`sum(durations) * hop_length` samples), then the two trailing asserts. -/
def reconcile (phonLen : Nat) (sp : List (List Int)) (wav : List Int)
    (phnDur : List Nat) (hop : Nat) :
    Except RError (List (List Int) × List Int) :=
  let sumdur := phnDur.sum
  if 2 ≤ frameGap sp sumdur then
    Except.error RError.alignment
  else
    let step : Except RError (List (List Int) × List Int) :=
      if sumdur < frames sp then
        -- spec = spec[:, :sumdur]; wav = wav[:, :sumdur * hop_length]
        Except.ok (sp.map (fun row => row.take sumdur), wav.take (sumdur * hop))
      else if frames sp < sumdur then
        -- zero containers of the target widths, originals copied into their
        -- prefixes; the copy demands the source fits the destination slice
        if wav.length ≤ sumdur * hop then
          Except.ok (sp.map (fun row => row ++ List.replicate (sumdur - frames sp) 0),
                     wav ++ List.replicate (sumdur * hop - wav.length) 0)
        else Except.error RError.shapeMismatch
      else
        Except.ok (sp, wav)
    match step with
    | Except.error e => Except.error e
    | Except.ok (sp2, wav2) =>
      -- assert phonemes.shape == phn_dur.shape
      if phonLen ≠ phnDur.length then Except.error RError.invariant
      -- assert sumdur == wav.shape[-1] // hop_length
      else if sumdur ≠ wav2.length / hop then Except.error RError.invariant
      else Except.ok (sp2, wav2)

/-! ### `TextAudioCollate.__call__` -/

/-- One dataset item as returned by `get_audio_text_pair`:
`(phonemes, spec, ying, wav, phn_dur)`. -/
structure Ex where
  phonemes : List Int
  spec : List (List Int)
  ying : List (List Int)
  wav : List Int
  phndur : List Int
deriving DecidableEq, Repr, Inhabited

/-- The collator's sort key for example `x`: `x[1].size(1)`, the spectrogram
frame count. -/
def exKey (e : Ex) : Nat :=
  frames e.spec

/-- Insert an index into a key-descending index list, after any index of equal
key (stability). -/
def insertDesc (key : Nat → Nat) (a : Nat) : List Nat → List Nat
  | [] => [a]
  | b :: t => if key b ≤ key a then a :: b :: t else b :: insertDesc key a t

/-- Stable descending argsort of `l` by `key`; models
`torch.sort(..., descending=True)` returning sorted positions. -/
def argsortDesc (key : Nat → Nat) : List Nat → List Nat
  | [] => []
  | a :: t => insertDesc key a (argsortDesc key t)

/-- `ids_sorted_decreasing` of `TextAudioCollate.__call__`: positions of the
batch sorted by decreasing spectrogram length. -/
def sortIds (batch : List Ex) : List Nat :=
  argsortDesc (fun i => exKey (batch.getD i default)) (List.range batch.length)

/-- Python `max(batch.map f)` (batches are non-empty wherever this is used). -/
def maxOf (f : Ex → Nat) (batch : List Ex) : Nat :=
  (batch.map f).foldr Nat.max 0

/-- A zero-initialised row of width `n` whose first `l.length` entries were
overwritten with `l` (all uses have `l.length <= n`). -/
def padTo (n : Nat) (l : List Int) : List Int :=
  l ++ List.replicate (n - l.length) 0

/-- The nine tensors returned by `TextAudioCollate.__call__`, in order. -/
structure CollateOut where
  phonemes_padded : List (List Int)
  phonemes_lengths : List Nat
  spec_padded : List (List (List Int))
  spec_lengths : List Nat
  ying_padded : List (List (List Int))
  ying_lengths : List Nat
  wav_padded : List (List Int)
  wav_lengths : List Nat
  phndur_padded : List (List Int)
deriving DecidableEq, Repr

/-- `TextAudioCollate.__call__`: sort positions by decreasing spectrogram
length, then fill zero containers sized by the per-field batch maxima, row `i`
holding example `ids_sorted_decreasing[i]`, and record true lengths for the
phoneme, spec, ying and wav fields. -/
def collate (batch : List Ex) : CollateOut :=
  let ids := sortIds batch
  let sortedB := ids.map (fun j => batch.getD j default)
  let maxP := maxOf (fun x => x.phonemes.length) batch
  let maxS := maxOf (fun x => frames x.spec) batch
  let maxY := maxOf (fun x => frames x.ying) batch
  let maxW := maxOf (fun x => x.wav.length) batch
  let maxD := maxOf (fun x => x.phndur.length) batch
  { phonemes_padded := sortedB.map (fun e => padTo maxP e.phonemes)
    phonemes_lengths := sortedB.map (fun e => e.phonemes.length)
    spec_padded := sortedB.map (fun e => e.spec.map (padTo maxS))
    spec_lengths := sortedB.map (fun e => frames e.spec)
    ying_padded := sortedB.map (fun e => e.ying.map (padTo maxY))
    ying_lengths := sortedB.map (fun e => frames e.ying)
    wav_padded := sortedB.map (fun e => padTo maxW e.wav)
    wav_lengths := sortedB.map (fun e => e.wav.length)
    phndur_padded := sortedB.map (fun e => padTo maxD e.phndur) }

/-! ### `DistributedBucketSampler` construction -/

/-- The bucket fill loop of `_create_buckets`: example `i` goes to bucket
`_bisect(lengths[i])` (appended in index order), examples with `_bisect = -1`
are dropped. -/
def assignBuckets (lengths boundaries : List Nat) : List (List Nat) :=
  (List.range (boundaries.length - 1)).map (fun k =>
    (List.range lengths.length).filter (fun i =>
      bisect boundaries (lengths.getD i 0) 0 (boundaries.length - 1) == Int.ofNat k))

/-- The reverse-order `pop` loop of `_create_buckets` on the buckets: empty
buckets are removed, surviving buckets keep their relative order. -/
def pruneBuckets (buckets : List (List Nat)) : List (List Nat) :=
  buckets.filter (fun b => !b.isEmpty)

/-- The reverse-order `pop` loop of `_create_buckets` on the boundaries:
`boundaries[i + 1]` is removed exactly when bucket `i` is empty. -/
def pruneBoundaries (boundaries : List Nat) (buckets : List (List Nat)) : List Nat :=
  match boundaries with
  | [] => []
  | b0 :: rest =>
    b0 :: (rest.zip buckets).filterMap (fun p => if p.2.isEmpty then none else some p.1)

/-- `len_bucket + ((T - len_bucket % T) % T)` with `T = num_replicas *
batch_size`: the padded per-bucket sample count. -/
def padSize (T n : Nat) : Nat :=
  n + ((T - n % T) % T)

/-- The sampler state after `__init__`. -/
structure Sampler where
  buckets : List (List Nat)
  boundariesPruned : List Nat
  numPer : List Nat
  batchSize : Nat
  worldSize : Nat
  rank : Nat
  shuffle : Bool
  numSamples : Nat
deriving DecidableEq, Repr

/-- `DistributedBucketSampler.__init__`.  `none` models the Python failures:
`torch.utils.data.distributed.DistributedSampler.__init__` raises `ValueError`
unless `0 <= rank < num_replicas`, and `_create_buckets` raises
`ZeroDivisionError` on `len_bucket % total_batch_size` when
`batch_size == 0` and some bucket survives. -/
def mkSampler (lengths : List Nat) (batchSize : Nat) (boundaries : List Nat)
    (worldSize rank : Nat) (shuffle : Bool) : Option Sampler :=
  if rank < worldSize then
    let bks := pruneBuckets (assignBuckets lengths boundaries)
    if batchSize = 0 ∧ bks ≠ [] then none
    else
      let nper := bks.map (fun b => padSize (worldSize * batchSize) b.length)
      some { buckets := bks
             boundariesPruned := pruneBoundaries boundaries (assignBuckets lengths boundaries)
             numPer := nper
             batchSize := batchSize
             worldSize := worldSize
             rank := rank
             shuffle := shuffle
             numSamples := nper.sum / worldSize }
  else none

/-! ### `DistributedBucketSampler.__iter__` -/

/-- The cyclic padding of `__iter__`:
`ids + ids * (rem // len_bucket) + ids[:rem % len_bucket]`.
`lenB` is `len_bucket`; at the call site `len(ids) == len_bucket` (the
permutation returned by `torch.randperm(len(bucket))`, or `range`). -/
def padCycle (ids : List Nat) (lenB rem : Nat) : List Nat :=
  ids ++ (List.replicate (rem / lenB) ids).flatten ++ ids.take (rem % lenB)

/-- The per-bucket body of `__iter__`: pad the permuted local index list
cyclically to `num_samples_bucket`, take this rank's strided share
`ids_bucket[rank::num_replicas]`, and cut it into `batch_size` chunks of
global indices `bucket[idx]`.  `none` models `ZeroDivisionError`
(`rem // len_bucket` with an empty bucket, or `len(ids) // batch_size` with
`batch_size == 0`) and `IndexError` on `bucket[idx]`. -/
def bucketBatches (bucket perm : List Nat) (nsb bs W r : Nat) :
    Option (List (List Nat)) :=
  if bucket.length = 0 ∨ bs = 0 then none
  else
    let rem := nsb - bucket.length
    let padded := padCycle perm bucket.length rem
    let mine := sliceStep padded r W
    mapOpt (fun j => mapOpt (fun idx => bucket.get? idx) ((mine.drop (j * bs)).take bs))
      (List.range (mine.length / bs))

/-- `DistributedBucketSampler.__iter__` for one epoch.  `rp` is the stream of
`torch.randperm` results of the epoch-seeded generator (call index, size);
call `i < len(buckets)` shuffles bucket `i`, the final call permutes the batch
order.  The trailing guard is the
`assert len(self.batches) * self.batch_size == self.num_samples`. -/
def sampler_iter (s : Sampler) (rp : Nat → Nat → List Nat) :
    Option (List (List Nat)) :=
  let indices :=
    if s.shuffle then
      (List.range s.buckets.length).map (fun i => rp i (s.buckets.getD i []).length)
    else
      s.buckets.map (fun b => List.range b.length)
  match mapOpt (fun i =>
      bucketBatches (s.buckets.getD i []) (indices.getD i []) (s.numPer.getD i 0)
        s.batchSize s.worldSize s.rank) (List.range s.buckets.length) with
  | none => none
  | some bls =>
    let batches := bls.flatten
    match (if s.shuffle then
             mapOpt (fun i => batches.get? i) (rp s.buckets.length batches.length)
           else some batches) with
    | none => none
    | some batches2 =>
      if batches2.length * s.batchSize = s.numSamples then some batches2 else none

/-! ### Lemmas on the list helpers -/

theorem strideAux_length {α : Type} (n : Nat) (hn : 0 < n) :
    ∀ (l : List α) (c : Nat), (strideAux n c l).length = (l.length - c + n - 1) / n := by
  intro l
  induction l with
  | nil =>
    intro c
    have h : strideAux n c ([] : List α) = [] := by cases c <;> rfl
    rw [h]
    simp only [List.length_nil]
    rw [Nat.div_eq_of_lt (by omega)]
  | cons a rest ih =>
    intro c
    cases c with
    | zero =>
      simp only [strideAux, List.length_cons, ih]
      have h1 : rest.length + 1 - 0 + n - 1 = rest.length + n := by omega
      rw [h1, Nat.add_div_right _ hn]
      rcases Nat.lt_or_ge rest.length n with h | h
      · have h2 : rest.length - (n - 1) + n - 1 = n - 1 := by omega
        rw [h2, Nat.div_eq_of_lt (by omega), Nat.div_eq_of_lt h]
      · have h2 : rest.length - (n - 1) + n - 1 = rest.length := by omega
        rw [h2]
    | succ c =>
      simp only [strideAux, List.length_cons, ih]
      have h1 : rest.length - c + n - 1 = rest.length + 1 - (c + 1) + n - 1 := by omega
      rw [h1]

theorem sliceStep_length {α : Type} (l : List α) (r n : Nat) (hn : 0 < n) :
    (sliceStep l r n).length = (l.length - r + n - 1) / n :=
  strideAux_length n hn l r

theorem sliceStep_length_dvd {α : Type} (l : List α) (r n q : Nat) (hn : 0 < n)
    (hr : r < n) (hq : l.length = n * q) : (sliceStep l r n).length = q := by
  rw [sliceStep_length _ _ _ hn, hq]
  rcases Nat.eq_zero_or_pos q with hq0 | hq0
  · subst hq0
    have h : n * 0 - r + n - 1 = n - 1 := by omega
    rw [h, Nat.div_eq_of_lt (by omega)]
  · have hnq : n ≤ n * q := Nat.le_mul_of_pos_right n hq0
    have h : n * q - r + n - 1 = (n - 1 - r) + n * q := by omega
    rw [h, Nat.add_mul_div_left _ _ hn, Nat.div_eq_of_lt (by omega), Nat.zero_add]

theorem sliceStep_nil {α : Type} (r n : Nat) : sliceStep ([] : List α) r n = [] := by
  cases r <;> rfl

theorem sliceStep_cons_zero {α : Type} (a : α) (rest : List α) (m : Nat) :
    sliceStep (a :: rest) 0 (m + 1) = a :: sliceStep rest m (m + 1) := rfl

theorem sliceStep_cons_succ {α : Type} (a : α) (rest : List α) (r n : Nat) :
    sliceStep (a :: rest) (r + 1) n = sliceStep rest r n := rfl

/-- The rank-strided slices `l[r::n]`, `r = 0 .. n-1`, joined together are a
permutation of `l`: they are pairwise disjoint position-wise and together
reconstruct the whole list. -/
theorem sliceStep_partition {α : Type} (n : Nat) (hn : 0 < n) (l : List α) :
    (((List.range n).map (fun r => sliceStep l r n)).flatten).Perm l := by
  induction l with
  | nil =>
    have h : (((List.range n).map (fun r => sliceStep ([] : List α) r n)).flatten) = [] := by
      simp [sliceStep_nil]
    rw [h]
  | cons a rest ih =>
    obtain ⟨m, rfl⟩ : ∃ m, n = m + 1 := ⟨n - 1, by omega⟩
    rw [List.range_succ_eq_map]
    simp only [List.map_cons, List.map_map, List.flatten_cons, Function.comp_def,
      Nat.succ_eq_add_one, sliceStep_cons_succ, sliceStep_cons_zero, List.cons_append]
    refine List.Perm.cons a ?_
    refine List.Perm.trans List.perm_append_comm ?_
    have hjoin : ((List.range (m + 1)).map fun r => sliceStep rest r (m + 1)).flatten
        = ((List.range m).map fun r => sliceStep rest r (m + 1)).flatten
            ++ sliceStep rest m (m + 1) := by
      rw [List.range_succ, List.map_append, List.flatten_append]
      simp
    rw [← hjoin]
    exact ih

theorem length_flatten_replicate {α : Type} (k : Nat) (l : List α) :
    ((List.replicate k l).flatten).length = k * l.length := by
  induction k with
  | zero => simp
  | succ k ih => simp [List.replicate_succ, ih, Nat.succ_mul]; omega

theorem padCycle_length (ids : List Nat) (lenB rem : Nat) (hl : ids.length = lenB)
    (h0 : 0 < lenB) : (padCycle ids lenB rem).length = lenB + rem := by
  have hmod : rem % lenB < lenB := Nat.mod_lt _ h0
  have hdm := Nat.div_add_mod rem lenB
  simp only [padCycle, List.length_append, length_flatten_replicate, List.length_take, hl]
  have hmin : min (rem % lenB) lenB = rem % lenB := Nat.min_eq_left (Nat.le_of_lt hmod)
  rw [hmin]
  have hcomm : rem / lenB * lenB = lenB * (rem / lenB) := Nat.mul_comm _ _
  omega

theorem padCycle_subset {x : Nat} {ids : List Nat} {lenB rem : Nat}
    (hx : x ∈ padCycle ids lenB rem) : x ∈ ids := by
  simp only [padCycle, List.mem_append] at hx
  rcases hx with (hx | hx) | hx
  · exact hx
  · obtain ⟨l, hl, hxl⟩ := List.mem_flatten.mp hx
    obtain rfl := List.eq_of_mem_replicate hl
    exact hxl
  · exact List.take_subset _ _ hx

/-! ### Lemmas on `mapOpt` -/

theorem mapOpt_eq_some {α β : Type} {f : α → Option β} {l : List α} (g : α → β)
    (hg : ∀ a ∈ l, f a = some (g a)) : mapOpt f l = some (l.map g) := by
  induction l with
  | nil => rfl
  | cons a t ih =>
    rw [mapOpt, hg a (List.mem_cons_self a t), ih (fun b hb => hg b (List.mem_cons_of_mem a hb))]
    rfl

theorem mapOpt_exists {α β : Type} {f : α → Option β} {l : List α}
    (h : ∀ a ∈ l, (f a).isSome) : ∃ out, mapOpt f l = some out ∧ out.length = l.length := by
  induction l with
  | nil => exact ⟨[], rfl, rfl⟩
  | cons a t ih =>
    obtain ⟨out, hout, hlen⟩ := ih (fun b hb => h b (List.mem_cons_of_mem a hb))
    obtain ⟨b, hb⟩ := Option.isSome_iff_exists.mp (h a (List.mem_cons_self a t))
    refine ⟨b :: out, ?_, by simp [hlen]⟩
    rw [mapOpt, hb, hout]

/-! ### Correctness of `_bisect` (claim C3) -/

theorem sorted_getD_lt {b : List Nat} (hs : List.Pairwise (· < ·) b) {i j : Nat}
    (hij : i < j) (hj : j < b.length) : b.getD i 0 < b.getD j 0 := by
  have hi : i < b.length := Nat.lt_trans hij hj
  rw [List.getD_eq_getElem b 0 hi, List.getD_eq_getElem b 0 hj]
  exact List.pairwise_iff_getElem.mp hs i j hi hj hij

theorem sorted_getD_le {b : List Nat} (hs : List.Pairwise (· < ·) b) {i j : Nat}
    (hij : i ≤ j) (hj : j < b.length) : b.getD i 0 ≤ b.getD j 0 := by
  rcases Nat.eq_or_lt_of_le hij with rfl | h
  · exact Nat.le_refl _
  · exact Nat.le_of_lt (sorted_getD_lt hs h hj)

/-- If `_bisect` answers a bucket index, that index is a crossing:
`boundaries[k] < x <= boundaries[k+1]`, and it lies inside the probed range. -/
theorem bisectFuel_sound (b : List Nat) (x : Nat) :
    ∀ fuel lo hi k, hi - lo < fuel → bisectFuel b x fuel lo hi = Int.ofNat k →
      b.getD k 0 < x ∧ x ≤ b.getD (k + 1) 0 ∧ lo ≤ k ∧ k + 1 ≤ hi := by
  intro fuel
  induction fuel with
  | zero =>
    intro lo hi k hle hb
    exact absurd hb (by simp [bisectFuel])
  | succ fuel ihd =>
    intro lo hi k hle hb
    rw [bisectFuel] at hb
    by_cases hlh : lo < hi
    · rw [if_pos hlh] at hb
      simp only at hb
      by_cases hc : b.getD ((hi + lo) / 2) 0 < x ∧ x ≤ b.getD ((hi + lo) / 2 + 1) 0
      · rw [if_pos hc] at hb
        have hk : (hi + lo) / 2 = k := Int.ofNat.inj hb
        subst hk
        exact ⟨hc.1, hc.2, by omega, by omega⟩
      · rw [if_neg hc] at hb
        by_cases hx : x ≤ b.getD ((hi + lo) / 2) 0
        · rw [if_pos hx] at hb
          obtain ⟨h1, h2, h3, h4⟩ := ihd lo ((hi + lo) / 2) k (by omega) hb
          exact ⟨h1, h2, h3, by omega⟩
        · rw [if_neg hx] at hb
          obtain ⟨h1, h2, h3, h4⟩ := ihd ((hi + lo) / 2 + 1) hi k (by omega) hb
          exact ⟨h1, h2, by omega, h4⟩
    · rw [if_neg hlh] at hb
      exact absurd hb (by simp)

/-- If a crossing exists inside the probed range, `_bisect` finds it. -/
theorem bisectFuel_complete (b : List Nat) (x : Nat) (hs : List.Pairwise (· < ·) b) :
    ∀ fuel lo hi k, hi - lo < fuel → lo ≤ k → k + 1 ≤ hi → hi ≤ b.length - 1 →
      b.getD k 0 < x → x ≤ b.getD (k + 1) 0 → bisectFuel b x fuel lo hi = Int.ofNat k := by
  intro fuel
  induction fuel with
  | zero => intro lo hi k hd h1 h2 _ _ _; omega
  | succ fuel ihd =>
    intro lo hi k hd hlok hkhi hhi hbk hbk1
    have hlh : lo < hi := by omega
    have hblen : 2 ≤ b.length := by omega
    rw [bisectFuel, if_pos hlh]
    simp only
    set mid := (hi + lo) / 2 with hmid
    have hmlo : lo ≤ mid := by omega
    have hmhi : mid < hi := by omega
    by_cases hc : b.getD mid 0 < x ∧ x ≤ b.getD (mid + 1) 0
    · rw [if_pos hc]
      -- uniqueness of the crossing under strict monotonicity
      have hmk : mid = k := by
        by_contra hne
        rcases Nat.lt_or_ge mid k with h | h
        · have : b.getD (mid + 1) 0 ≤ b.getD k 0 :=
            sorted_getD_le hs (by omega) (by omega)
          omega
        · have hkm : k < mid := by omega
          have : b.getD (k + 1) 0 ≤ b.getD mid 0 :=
            sorted_getD_le hs (by omega) (by omega)
          omega
      rw [hmk]
    · rw [if_neg hc]
      by_cases hx : x ≤ b.getD mid 0
      · rw [if_pos hx]
        have hkm : k < mid := by
          by_contra hge
          have : b.getD mid 0 ≤ b.getD k 0 := sorted_getD_le hs (by omega) (by omega)
          omega
        exact ihd lo mid k (by omega) hlok (by omega) (by omega) hbk hbk1
      · rw [if_neg hx]
        have hbmid1 : b.getD (mid + 1) 0 < x := by
          rcases Nat.lt_or_ge (b.getD (mid + 1) 0) x with h | h
          · exact h
          · exact absurd ⟨by omega, h⟩ hc
        have hmk : mid + 1 ≤ k := by
          by_contra hgt
          have : b.getD (k + 1) 0 ≤ b.getD (mid + 1) 0 :=
            sorted_getD_le hs (by omega) (by omega)
          omega
        exact ihd (mid + 1) hi k (by omega) hmk hkhi hhi hbk hbk1

/-- If no crossing exists inside the probed range, `_bisect` answers `-1`. -/
theorem bisectFuel_none (b : List Nat) (x : Nat) :
    ∀ fuel lo hi, hi - lo < fuel →
      (∀ k, lo ≤ k → k + 1 ≤ hi → ¬(b.getD k 0 < x ∧ x ≤ b.getD (k + 1) 0)) →
      bisectFuel b x fuel lo hi = -1 := by
  intro fuel
  induction fuel with
  | zero =>
    intro lo hi hd _
    omega
  | succ fuel ihd =>
    intro lo hi hd hno
    by_cases hlh : lo < hi
    · rw [bisectFuel, if_pos hlh]
      simp only
      set mid := (hi + lo) / 2 with hmid
      have hmlo : lo ≤ mid := by omega
      have hmhi : mid < hi := by omega
      rw [if_neg (hno mid hmlo (by omega))]
      by_cases hx : x ≤ b.getD mid 0
      · rw [if_pos hx]
        exact ihd lo mid (by omega) (fun k h1 h2 => hno k h1 (by omega))
      · rw [if_neg hx]
        exact ihd (mid + 1) hi (by omega) (fun k h1 h2 => hno k (by omega) h2)
    · rw [bisectFuel, if_neg hlh]

theorem bisect_complete (b : List Nat) (x : Nat) (hs : List.Pairwise (· < ·) b)
    (lo hi k : Nat) (hlok : lo ≤ k) (hkhi : k + 1 ≤ hi) (hhi : hi ≤ b.length - 1)
    (hbk : b.getD k 0 < x) (hbk1 : x ≤ b.getD (k + 1) 0) :
    bisect b x lo hi = Int.ofNat k :=
  bisectFuel_complete b x hs (hi - lo + 1) lo hi k (by omega) hlok hkhi hhi hbk hbk1

theorem bisect_none (b : List Nat) (x : Nat) (lo hi : Nat)
    (hno : ∀ k, lo ≤ k → k + 1 ≤ hi → ¬(b.getD k 0 < x ∧ x ≤ b.getD (k + 1) 0)) :
    bisect b x lo hi = -1 :=
  bisectFuel_none b x (hi - lo + 1) lo hi (by omega) hno

/-- A discrete intermediate-value fact: if `x` is above the first boundary and
at most boundary `j`, some adjacent pair crosses it. -/
theorem crossing_exists (b : List Nat) (x : Nat) :
    ∀ j, j < b.length → b.getD 0 0 < x → x ≤ b.getD j 0 →
      ∃ k, k + 1 ≤ j ∧ b.getD k 0 < x ∧ x ≤ b.getD (k + 1) 0 := by
  intro j
  induction j with
  | zero => intro _ h0 hx; omega
  | succ j ihj =>
    intro hj h0 hx
    by_cases hbj : b.getD j 0 < x
    · exact ⟨j, Nat.le_refl _, hbj, hx⟩
    · obtain ⟨k, hk, h1, h2⟩ := ihj (by omega) h0 (by omega)
      exact ⟨k, by omega, h1, h2⟩

/-- C3: for every strictly ascending boundaries list of length at least 2 and
every example length `x`, `_bisect` returns the unique index `k` with
`boundaries[k] < x <= boundaries[k+1]` whenever such `k` exists (the universal
quantification over `k` also gives uniqueness), and returns the discard marker
`-1` exactly when `x <= boundaries[0]` or `x > boundaries[-1]`. -/
theorem c3_bucket_assignment (b : List Nat) (x : Nat)
    (hs : List.Pairwise (· < ·) b) (hlen : 2 ≤ b.length) :
    (∀ k, k + 1 < b.length → b.getD k 0 < x → x ≤ b.getD (k + 1) 0 →
       bisectTop b x = Int.ofNat k) ∧
    (bisectTop b x = -1 ↔ (x ≤ b.getD 0 0 ∨ b.getD (b.length - 1) 0 < x)) := by
  refine ⟨?_, ?_, ?_⟩
  · intro k hk h1 h2
    exact bisect_complete b x hs 0 (b.length - 1) k (by omega) (by omega) le_rfl h1 h2
  · intro hnone
    by_contra hor
    push_neg at hor
    obtain ⟨h0, hlast⟩ := hor
    obtain ⟨k, hk, hc1, hc2⟩ :=
      crossing_exists b x (b.length - 1) (by omega) (by omega) hlast
    have hfound := bisect_complete b x hs 0 (b.length - 1) k (by omega) hk le_rfl hc1 hc2
    rw [bisectTop, hfound] at hnone
    exact absurd hnone (by simp)
  · intro hor
    rw [bisectTop]
    apply bisect_none b x 0 (b.length - 1)
    intro k hk0 hk1 hc
    rcases hor with h | h
    · have : b.getD 0 0 ≤ b.getD k 0 := sorted_getD_le hs (by omega) (by omega)
      omega
    · have : b.getD (k + 1) 0 ≤ b.getD (b.length - 1) 0 :=
        sorted_getD_le hs hk1 (by omega)
      omega

/-- Witness for C3: on boundaries `[0, 10, 20]` the length `15` lands in
bucket 1, i.e. `(10, 20]`. -/
theorem c3_bucket_assignment_witness : bisectTop [0, 10, 20] 15 = Int.ofNat 1 :=
  (c3_bucket_assignment [0, 10, 20] 15 (by decide) (by decide)).1 1 (by decide)
    (by decide) (by decide)

/-! ### Claim C8: catalog retention -/

/-- C8 counterexample: the manifest row whose phoneme field is the string
`"abcd"` has 1 text unit (token), inside the bounds `[1, 3]`, yet `_filter`
discards it, because the code bounds `len(phonemes)` — the character length 4
of the raw string — not the token count.  This refutes the claim that a row is
retained iff the number of text units lies within the bounds. -/
theorem c8_counterexample :
    filterRows [⟨[], ['a', 'b', 'c', 'd'], []⟩] 1 3 = [] ∧
    1 ≤ tokenCount ['a', 'b', 'c', 'd'] ∧ tokenCount ['a', 'b', 'c', 'd'] ≤ 3 := by
  decide

/-- C8 (amended): the catalog retains a manifest row iff
`min_text_len <= len(phonemes) <= max_text_len` where `len(phonemes)` is the
character length of the row's raw phoneme string (spaces included), not the
token count. -/
theorem c8_retention_iff (rows : List Row) (minLen maxLen : Nat) (r : Row) :
    r ∈ filterRows rows minLen maxLen ↔
      r ∈ rows ∧ minLen ≤ r.phonemes.length ∧ r.phonemes.length ≤ maxLen := by
  simp [filterRows, List.mem_filter]

/-! ### Claims C4, C5, C6: alignment reconciliation -/

/-- C5: the reconciliation step fails with the alignment error (the tolerance
assert of line 77) precisely when the absolute difference between the acoustic
frame count and the duration sum is at least 2; any smaller mismatch never
produces this error (later failures surface as different errors). -/
theorem c5_alignment_iff (phonLen : Nat) (sp : List (List Int)) (wav : List Int)
    (phnDur : List Nat) (hop : Nat) :
    reconcile phonLen sp wav phnDur hop = Except.error RError.alignment ↔
      2 ≤ frameGap sp phnDur.sum := by
  constructor
  · intro hc
    by_contra hgap
    simp only [reconcile] at hc
    rw [if_neg hgap] at hc
    by_cases h1 : phnDur.sum < frames sp
    · rw [if_pos h1] at hc
      dsimp only at hc
      split at hc <;> (try split at hc) <;> exact absurd hc (by simp)
    · rw [if_neg h1] at hc
      by_cases h2 : frames sp < phnDur.sum
      · rw [if_pos h2] at hc
        by_cases h3 : wav.length ≤ phnDur.sum * hop
        · rw [if_pos h3] at hc
          dsimp only at hc
          split at hc <;> (try split at hc) <;> exact absurd hc (by simp)
        · rw [if_neg h3] at hc
          dsimp only at hc
          exact absurd hc (by simp)
      · rw [if_neg h2] at hc
        dsimp only at hc
        split at hc <;> (try split at hc) <;> exact absurd hc (by simp)
  · intro hgap
    simp only [reconcile]
    rw [if_pos hgap]

/-- C4 counterexample: the spectrogram `[[5]]` (one channel, one frame), the
empty waveform, duration annotation `[1]` and `hop_length = 2` satisfy the
claimed precondition (`|frames - sum| = 0 < 2`), yet reconciliation does not
succeed: the trailing assert `sumdur == wav.shape[-1] // hop_length` fails,
because the equal-frame-count branch leaves the inconsistent waveform
untouched. -/
theorem c4_counterexample :
    frameGap [[5]] ([1] : List Nat).sum < 2 ∧
    reconcile 1 [[5]] [] [1] 2 = Except.error RError.invariant :=
  ⟨by decide, by rfl⟩

/-- Success of `reconcile` on an input whose frame count already equals the
duration sum and whose trailing asserts hold. -/
theorem reconcile_fixed (phonLen : Nat) (sp2 : List (List Int)) (wav2 : List Int)
    (phnDur : List Nat) (hop : Nat) (hfr : frames sp2 = phnDur.sum)
    (hph : phonLen = phnDur.length) (hwv : phnDur.sum = wav2.length / hop) :
    reconcile phonLen sp2 wav2 phnDur hop = Except.ok (sp2, wav2) := by
  simp only [reconcile]
  rw [if_neg (by simp [frameGap, hfr])]
  rw [if_neg (by omega), if_neg (by omega)]
  dsimp only
  rw [if_neg (fun hne => hne hph), if_neg (fun hne => hne hwv)]

/-- C4 (amended): reconciliation succeeds — and afterwards the frame count
and the waveform sample count divided by `hop_length` both equal
`sum(duration_annotation)`, by truncation when the spectrogram was longer and
by zero-padding when it was shorter — provided that, besides the tolerance
precondition `|frames - sum| < 2`, the input is well formed: at least one
channel, `len(phonemes) = len(durations)`, a positive hop, and a waveform
consistent with the spectrogram (`wav.sample_count / hop_length = frames`).
Without the extra hypotheses the claim fails (see the counterexample). -/
theorem c4_reconcile_roundtrip (phonLen : Nat) (sp : List (List Int))
    (wav : List Int) (phnDur : List Nat) (hop : Nat)
    (hsp : sp ≠ []) (hphon : phonLen = phnDur.length) (hhop : 0 < hop)
    (hwav : wav.length / hop = frames sp) (hgap : frameGap sp phnDur.sum < 2) :
    ∃ sp2 wav2, reconcile phonLen sp wav phnDur hop = Except.ok (sp2, wav2) ∧
      frames sp2 = phnDur.sum ∧ wav2.length / hop = phnDur.sum ∧
      (phnDur.sum < frames sp →
        sp2 = sp.map (fun row => row.take phnDur.sum) ∧
        wav2 = wav.take (phnDur.sum * hop)) ∧
      (frames sp < phnDur.sum →
        sp2 = sp.map (fun row => row ++ List.replicate (phnDur.sum - frames sp) 0) ∧
        wav2 = wav ++ List.replicate (phnDur.sum * hop - wav.length) 0) ∧
      (frames sp = phnDur.sum → sp2 = sp ∧ wav2 = wav) := by
  obtain ⟨r, rest, rfl⟩ : ∃ r rest, sp = r :: rest := by
    cases sp with
    | nil => exact absurd rfl hsp
    | cons r rest => exact ⟨r, rest, rfl⟩
  have hfr : frames (r :: rest) = r.length := rfl
  have hdm := Nat.div_add_mod wav.length hop
  have hmod := Nat.mod_lt wav.length hhop
  rw [hwav] at hdm
  simp only [reconcile]
  rw [if_neg (by omega)]
  rcases Nat.lt_trichotomy phnDur.sum (frames (r :: rest)) with h | h | h
  · -- spec longer: truncation
    rw [if_pos h]
    dsimp only
    have hmul : (phnDur.sum + 1) * hop ≤ frames (r :: rest) * hop :=
      Nat.mul_le_mul_right hop (by omega)
    have hsucc : (phnDur.sum + 1) * hop = phnDur.sum * hop + hop := Nat.succ_mul _ _
    have hcomm : frames (r :: rest) * hop = hop * frames (r :: rest) := Nat.mul_comm _ _
    have hwlen : phnDur.sum * hop ≤ wav.length := by omega
    have htake : (wav.take (phnDur.sum * hop)).length = phnDur.sum * hop := by
      rw [List.length_take]
      exact Nat.min_eq_left hwlen
    have hdiv : (wav.take (phnDur.sum * hop)).length / hop = phnDur.sum := by
      rw [htake, Nat.mul_div_cancel _ hhop]
    rw [if_neg (fun hne => hne hphon), if_neg (fun hne => hne hdiv.symm)]
    refine ⟨_, _, rfl, ?_, hdiv, fun _ => ⟨rfl, rfl⟩,
      fun h2 => absurd h2 (by omega), fun h2 => absurd h2 (by omega)⟩
    simp only [List.map_cons, frames, List.headD_cons, List.length_take]
    omega
  · -- frame counts agree: identity
    rw [if_neg (by omega), if_neg (by omega)]
    dsimp only
    have hdiv : wav.length / hop = phnDur.sum := by rw [hwav, ← h]
    rw [if_neg (fun hne => hne hphon), if_neg (fun hne => hne hdiv.symm)]
    exact ⟨_, _, rfl, h.symm, hdiv, fun h2 => absurd h2 (by omega),
      fun h2 => absurd h2 (by omega), fun _ => ⟨rfl, rfl⟩⟩
  · -- spec shorter: zero-padding
    rw [if_neg (by omega), if_pos h]
    have hmul : (frames (r :: rest) + 1) * hop ≤ phnDur.sum * hop :=
      Nat.mul_le_mul_right hop (by omega)
    have hsucc : (frames (r :: rest) + 1) * hop = frames (r :: rest) * hop + hop :=
      Nat.succ_mul _ _
    have hcomm : frames (r :: rest) * hop = hop * frames (r :: rest) := Nat.mul_comm _ _
    have hwlen : wav.length ≤ phnDur.sum * hop := by omega
    rw [if_pos hwlen]
    dsimp only
    have hpadlen : (wav ++ List.replicate (phnDur.sum * hop - wav.length) (0 : Int)).length
        = phnDur.sum * hop := by
      rw [List.length_append, List.length_replicate]
      omega
    have hdiv : (wav ++ List.replicate (phnDur.sum * hop - wav.length) (0 : Int)).length / hop
        = phnDur.sum := by
      rw [hpadlen, Nat.mul_div_cancel _ hhop]
    rw [if_neg (fun hne => hne hphon), if_neg (fun hne => hne hdiv.symm)]
    refine ⟨_, _, rfl, ?_, hdiv, fun h2 => absurd h2 (by omega),
      fun _ => ⟨rfl, rfl⟩, fun h2 => absurd h2 (by omega)⟩
    simp only [List.map_cons, frames, List.headD_cons, List.length_append,
      List.length_replicate] at *
    omega

/-- Witness for C4 (amended): a one-channel two-frame spectrogram with
duration sum 1 and `hop_length = 1` reconciles successfully. -/
theorem c4_reconcile_roundtrip_witness :
    ∃ sp2 wav2, reconcile 1 [[7, 8]] [1, 2] [1] 1 = Except.ok (sp2, wav2) ∧
      frames sp2 = ([1] : List Nat).sum ∧ wav2.length / 1 = ([1] : List Nat).sum ∧
      (([1] : List Nat).sum < frames [[7, 8]] →
        sp2 = [[7, 8]].map (fun row => row.take ([1] : List Nat).sum) ∧
        wav2 = [1, 2].take (([1] : List Nat).sum * 1)) ∧
      (frames [[7, 8]] < ([1] : List Nat).sum →
        sp2 = [[7, 8]].map (fun row =>
          row ++ List.replicate (([1] : List Nat).sum - frames [[7, 8]]) 0) ∧
        wav2 = [1, 2] ++ List.replicate (([1] : List Nat).sum * 1 - [1, 2].length) 0) ∧
      (frames [[7, 8]] = ([1] : List Nat).sum → sp2 = [[7, 8]] ∧ wav2 = [1, 2]) :=
  c4_reconcile_roundtrip 1 [[7, 8]] [1, 2] [1] 1 (by simp) (by decide) (by decide)
    (by decide) (by decide)

theorem frames_map_take (sp : List (List Int)) (sd : Nat) (hlt : sd < frames sp) :
    frames (sp.map (fun row => row.take sd)) = sd := by
  cases sp with
  | nil => simp [frames] at hlt
  | cons r rest =>
    have hr : r.length = frames (r :: rest) := rfl
    simp only [List.map_cons, frames, List.headD_cons, List.length_take]
    exact Nat.min_eq_left (by omega)

theorem frames_map_pad (sp : List (List Int)) (sd : Nat) (hlt : frames sp < sd)
    (hne : sp ≠ []) :
    frames (sp.map (fun row => row ++ List.replicate (sd - frames sp) 0)) = sd := by
  cases sp with
  | nil => exact absurd rfl hne
  | cons r rest =>
    have hr : r.length = frames (r :: rest) := rfl
    simp only [List.map_cons, frames, List.headD_cons, List.length_append,
      List.length_replicate] at *
    omega

/-- C6: reconciliation is idempotent — whenever `reconcile` succeeds, feeding
its output back in (with the same duration annotation and hop) returns that
output unchanged; an already-reconciled pair is a fixed point. -/
theorem c6_reconcile_idempotent (phonLen : Nat) (sp sp2 : List (List Int))
    (wav wav2 : List Int) (phnDur : List Nat) (hop : Nat)
    (h : reconcile phonLen sp wav phnDur hop = Except.ok (sp2, wav2)) :
    reconcile phonLen sp2 wav2 phnDur hop = Except.ok (sp2, wav2) := by
  simp only [reconcile] at h
  by_cases hgap : 2 ≤ frameGap sp phnDur.sum
  · rw [if_pos hgap] at h
    exact absurd h (by simp)
  · rw [if_neg hgap] at h
    by_cases h1 : phnDur.sum < frames sp
    · -- first call truncated
      rw [if_pos h1] at h
      dsimp only at h
      split at h
      · exact absurd h (by simp)
      · split at h
        · exact absurd h (by simp)
        · rename_i hph hwv
          simp only [Except.ok.injEq, Prod.mk.injEq] at h
          obtain ⟨rfl, rfl⟩ := h
          exact reconcile_fixed _ _ _ _ _ (frames_map_take sp _ h1)
            (Decidable.of_not_not hph) (Decidable.of_not_not hwv)
    · rw [if_neg h1] at h
      by_cases h2 : frames sp < phnDur.sum
      · -- first call zero-padded
        rw [if_pos h2] at h
        by_cases h3 : wav.length ≤ phnDur.sum * hop
        · rw [if_pos h3] at h
          dsimp only at h
          split at h
          · exact absurd h (by simp)
          · split at h
            · exact absurd h (by simp)
            · rename_i hph hwv
              simp only [Except.ok.injEq, Prod.mk.injEq] at h
              obtain ⟨rfl, rfl⟩ := h
              by_cases hnil : sp = []
              · -- zero-channel spectrogram: the second call pads again by zero
                subst hnil
                have hf0 : frames ([] : List (List Int)) = 0 := rfl
                have hw2 : (wav ++ List.replicate (phnDur.sum * hop - wav.length)
                    (0 : Int)).length = phnDur.sum * hop := by
                  rw [List.length_append, List.length_replicate]
                  omega
                have hwv2 : phnDur.sum = phnDur.sum * hop / hop := by
                  have hx := Decidable.of_not_not hwv
                  rw [hw2] at hx
                  exact hx
                simp only [reconcile, List.map_nil]
                rw [if_neg (by simpa [frameGap, frames] using hgap)]
                rw [if_neg (by omega), if_pos (by omega : frames ([] : List (List Int)) < phnDur.sum)]
                rw [if_pos (le_of_eq hw2)]
                dsimp only
                rw [hw2, Nat.sub_self, List.replicate_zero, List.append_nil, hw2]
                rw [if_neg hph, if_neg (fun hne => hne hwv2)]
              · exact reconcile_fixed _ _ _ _ _ (frames_map_pad sp _ h2 hnil)
                  (Decidable.of_not_not hph) (Decidable.of_not_not hwv)
        · rw [if_neg h3] at h
          dsimp only at h
          exact absurd h (by simp)
      · -- frame counts already agreed
        rw [if_neg h2] at h
        dsimp only at h
        split at h
        · exact absurd h (by simp)
        · split at h
          · exact absurd h (by simp)
          · rename_i hph hwv
            simp only [Except.ok.injEq, Prod.mk.injEq] at h
            obtain ⟨rfl, rfl⟩ := h
            exact reconcile_fixed _ _ _ _ _ (by omega)
              (Decidable.of_not_not hph) (Decidable.of_not_not hwv)

/-- Witness for C6: the concrete truncation `([[3, 4]], [6, 7])` with duration
sum 1 and hop 1 reconciles to `([[3]], [6])`, which is a fixed point. -/
theorem c6_reconcile_idempotent_witness :
    reconcile 1 [[3]] [6] [1] 1 = Except.ok ([[3]], [6]) :=
  c6_reconcile_idempotent 1 [[3, 4]] [[3]] [6, 7] [6] [1] 1 (by rfl)

/-! ### Claims C7, C10: the collator -/

theorem insertDesc_perm (key : Nat → Nat) (a : Nat) (l : List Nat) :
    (insertDesc key a l).Perm (a :: l) := by
  induction l with
  | nil => exact List.Perm.refl _
  | cons b t ih =>
    rw [insertDesc]
    by_cases hb : key b ≤ key a
    · rw [if_pos hb]
    · rw [if_neg hb]
      exact List.Perm.trans (List.Perm.cons b ih) (List.Perm.swap a b t)

theorem argsortDesc_perm (key : Nat → Nat) (l : List Nat) :
    (argsortDesc key l).Perm l := by
  induction l with
  | nil => exact List.Perm.refl _
  | cons a t ih =>
    rw [argsortDesc]
    exact List.Perm.trans (insertDesc_perm key a _) (List.Perm.cons a ih)

/-- The stable-descending order relation produced by the collator's argsort:
either strictly larger key, or equal keys in original index order. -/
def keyOrder (key : Nat → Nat) (i j : Nat) : Prop :=
  key j < key i ∨ (key i = key j ∧ i < j)

theorem insertDesc_pairwise (key : Nat → Nat) (a : Nat) (l : List Nat)
    (hl : l.Pairwise (keyOrder key)) (ha : ∀ b ∈ l, a < b) :
    (insertDesc key a l).Pairwise (keyOrder key) := by
  induction l with
  | nil => simp [insertDesc, keyOrder]
  | cons b t ih =>
    rw [List.pairwise_cons] at hl
    obtain ⟨hb, ht⟩ := hl
    rw [insertDesc]
    by_cases hba : key b ≤ key a
    · rw [if_pos hba]
      refine List.pairwise_cons.mpr ⟨?_, List.pairwise_cons.mpr ⟨hb, ht⟩⟩
      intro c hc
      rcases List.mem_cons.mp hc with rfl | hct
      · rcases Nat.lt_or_ge (key c) (key a) with h | h
        · exact Or.inl h
        · exact Or.inr ⟨by omega, ha c (List.mem_cons_self c t)⟩
      · have hkc : key c ≤ key b := by
          rcases hb c hct with h | h
          · exact Nat.le_of_lt h
          · omega
        rcases Nat.lt_or_ge (key c) (key a) with h | h
        · exact Or.inl h
        · exact Or.inr ⟨by omega, ha c (List.mem_cons_of_mem b hct)⟩
    · rw [if_neg hba]
      refine List.pairwise_cons.mpr ⟨?_, ih ht (fun c hc => ha c (List.mem_cons_of_mem b hc))⟩
      intro c hc
      have hc2 : c ∈ a :: t := (insertDesc_perm key a t).mem_iff.mp hc
      rcases List.mem_cons.mp hc2 with rfl | hct
      · exact Or.inl (by omega)
      · exact hb c hct

theorem argsortDesc_pairwise (key : Nat → Nat) (l : List Nat)
    (hl : l.Pairwise (· < ·)) :
    (argsortDesc key l).Pairwise (keyOrder key) := by
  induction l with
  | nil => simp [argsortDesc]
  | cons a t ih =>
    rw [List.pairwise_cons] at hl
    obtain ⟨ha, ht⟩ := hl
    rw [argsortDesc]
    refine insertDesc_pairwise key a _ (ih ht) ?_
    intro b hb
    exact ha b ((argsortDesc_perm key t).mem_iff.mp hb)

theorem sortIds_perm (batch : List Ex) :
    (sortIds batch).Perm (List.range batch.length) :=
  argsortDesc_perm _ _

theorem sortIds_length (batch : List Ex) :
    (sortIds batch).length = batch.length := by
  rw [(sortIds_perm batch).length_eq, List.length_range]

/-- C7 counterexample: a batch whose first example has the longer text-unit
sequence (length 5) but the shorter spectrogram (2 frames), and whose second
has text length 3 but 10 spectrogram frames.  The collator puts the length-3
text in row 0 (its `phonemes_lengths` output is `[3, 5]`, ascending in text
length), because `TextAudioCollate.__call__` sorts by `x[1].size(1)` — the
spectrogram length — not by text-unit-sequence length, refuting the claim
that row 0 holds the longest text-unit sequence. -/
theorem c7_counterexample :
    (collate [⟨[1, 2, 3, 4, 5], [[0, 0]], [[0]], [0], [1, 1, 1, 1, 1]⟩,
              ⟨[1, 2, 3], [[0, 0, 0, 0, 0, 0, 0, 0, 0, 0]], [[0]], [0], [1, 1, 1]⟩]).phonemes_lengths
      = [3, 5] := by
  decide

/-- C7 (amended): the collator sorts the examples of every batch by
descending *spectrogram frame count* (`x[1].size(1)`), stably as modelled
(ties keep the original relative order), before copying them into the padded
output containers; row 0 of every output field corresponds to an example with
the *longest spectrogram*, not necessarily the longest text-unit sequence. -/
theorem c7_collate_sorted_by_spec_length (batch : List Ex) :
    (sortIds batch).Perm (List.range batch.length) ∧
    (sortIds batch).Pairwise (keyOrder (fun i => exKey (batch.getD i default))) ∧
    (collate batch).phonemes_padded = (sortIds batch).map (fun j =>
      padTo (maxOf (fun x => x.phonemes.length) batch) (batch.getD j default).phonemes) ∧
    ∀ j, exKey (batch.getD j default) ≤
      exKey (batch.getD ((sortIds batch).getD 0 0) default) := by
  refine ⟨sortIds_perm batch, argsortDesc_pairwise _ _ (List.pairwise_lt_range _), ?_, ?_⟩
  · simp [collate, List.map_map, Function.comp_def]
  · intro j
    by_cases hj : j < batch.length
    · have hmem : j ∈ sortIds batch :=
        (sortIds_perm batch).mem_iff.mpr (List.mem_range.mpr hj)
      have hne : sortIds batch ≠ [] := by
        intro hnil
        rw [hnil] at hmem
        exact absurd hmem (List.not_mem_nil j)
      obtain ⟨h0, t, hht⟩ : ∃ h0 t, sortIds batch = h0 :: t := by
        cases hx : sortIds batch with
        | nil => exact absurd hx hne
        | cons h0 t => exact ⟨h0, t, rfl⟩
      have hpw := argsortDesc_pairwise (fun i => exKey (batch.getD i default)) _
        (List.pairwise_lt_range batch.length)
      rw [show sortIds batch = argsortDesc (fun i => exKey (batch.getD i default))
            (List.range batch.length) from rfl] at hht
      rw [hht] at hpw
      rw [show sortIds batch = argsortDesc (fun i => exKey (batch.getD i default))
            (List.range batch.length) from rfl, hht] at hmem ⊢
      rcases List.mem_cons.mp hmem with rfl | hjt
      · simp
      · have hr := (List.pairwise_cons.mp hpw).1 j hjt
        dsimp only [keyOrder] at hr
        rcases hr with h | h
        · simp only [List.getD_cons_zero]
          exact Nat.le_of_lt h
        · simp only [List.getD_cons_zero]
          omega
    · have hdef : batch.getD j default = default :=
        List.getD_eq_default _ _ (Nat.le_of_not_lt hj)
      rw [hdef]
      exact Nat.zero_le _

theorem getD_map {α β : Type} (f : α → β) (l : List α) (i : Nat) (hi : i < l.length)
    (da : α) (db : β) : (l.map f).getD i db = f (l.getD i da) := by
  rw [List.getD_eq_getElem _ _ (by simpa using hi), List.getD_eq_getElem _ _ hi,
    List.getElem_map]

theorem getD_mem_of_lt {α : Type} (l : List α) (i : Nat) (d : α) (hi : i < l.length) :
    l.getD i d ∈ l := by
  rw [List.getD_eq_getElem _ _ hi]
  exact List.getElem_mem _

theorem le_maxOf (f : Ex → Nat) (batch : List Ex) (e : Ex) (he : e ∈ batch) :
    f e ≤ maxOf f batch := by
  induction batch with
  | nil => cases he
  | cons b t ih =>
    simp only [maxOf, List.map_cons, List.foldr_cons]
    rcases List.mem_cons.mp he with rfl | ht
    · exact Nat.le_max_left _ _
    · exact Nat.le_trans (ih ht) (Nat.le_max_right _ _)

theorem padTo_length (n : Nat) (l : List Int) (h : l.length ≤ n) :
    (padTo n l).length = n := by
  simp only [padTo, List.length_append, List.length_replicate]
  omega

/-- C10 counterexample: a two-example batch whose duration-annotation lengths
are 1 and 2 while every other per-field length is at least 3.  None of the
four integer length vectors the collator returns records the durations' true
lengths (in either row order), and the collator returns no fifth length
vector at all — the output is the 9-tuple ending at `phndur_padded`.  This
refutes the claim that the output contains a length vector for the duration
annotations. -/
theorem c10_counterexample :
    ([⟨[9, 9, 9], [[1, 1, 1, 1, 1]], [[2, 2, 2, 2, 2, 2, 2]],
        [5, 5, 5, 5, 5, 5, 5, 5, 5], [4]⟩,
      ⟨[9, 9, 9, 9], [[1, 1, 1, 1, 1, 1]], [[2, 2, 2, 2, 2, 2, 2, 2]],
        [5, 5, 5, 5, 5, 5, 5, 5, 5, 5], [4, 4]⟩] : List Ex).map
        (fun e => e.phndur.length) = [1, 2] ∧
    (∀ v ∈ [(collate [⟨[9, 9, 9], [[1, 1, 1, 1, 1]], [[2, 2, 2, 2, 2, 2, 2]],
        [5, 5, 5, 5, 5, 5, 5, 5, 5], [4]⟩,
      ⟨[9, 9, 9, 9], [[1, 1, 1, 1, 1, 1]], [[2, 2, 2, 2, 2, 2, 2, 2]],
        [5, 5, 5, 5, 5, 5, 5, 5, 5, 5], [4, 4]⟩]).phonemes_lengths,
        (collate [⟨[9, 9, 9], [[1, 1, 1, 1, 1]], [[2, 2, 2, 2, 2, 2, 2]],
        [5, 5, 5, 5, 5, 5, 5, 5, 5], [4]⟩,
      ⟨[9, 9, 9, 9], [[1, 1, 1, 1, 1, 1]], [[2, 2, 2, 2, 2, 2, 2, 2]],
        [5, 5, 5, 5, 5, 5, 5, 5, 5, 5], [4, 4]⟩]).spec_lengths,
        (collate [⟨[9, 9, 9], [[1, 1, 1, 1, 1]], [[2, 2, 2, 2, 2, 2, 2]],
        [5, 5, 5, 5, 5, 5, 5, 5, 5], [4]⟩,
      ⟨[9, 9, 9, 9], [[1, 1, 1, 1, 1, 1]], [[2, 2, 2, 2, 2, 2, 2, 2]],
        [5, 5, 5, 5, 5, 5, 5, 5, 5, 5], [4, 4]⟩]).ying_lengths,
        (collate [⟨[9, 9, 9], [[1, 1, 1, 1, 1]], [[2, 2, 2, 2, 2, 2, 2]],
        [5, 5, 5, 5, 5, 5, 5, 5, 5], [4]⟩,
      ⟨[9, 9, 9, 9], [[1, 1, 1, 1, 1, 1]], [[2, 2, 2, 2, 2, 2, 2, 2]],
        [5, 5, 5, 5, 5, 5, 5, 5, 5, 5], [4, 4]⟩]).wav_lengths],
      v ≠ [1, 2] ∧ v ≠ [2, 1]) := by
  decide

/-- C10 (amended): for every non-empty batch (of well-formed, rectangular
tensors) the collator's output contains, for each of the five fields, a
zero-initialised padded container at the batch's per-field maximum length
holding each example's data in the prefix (`padTo`), together with an integer
length vector recording each example's true length for the phoneme, spec,
ying and wav fields only — the duration annotations get a padded container
but *no* length vector. -/
theorem c10_collate_padded_fields (batch : List Ex)
    (hrectS : ∀ e ∈ batch, ∀ ch ∈ e.spec, ch.length = frames e.spec)
    (hrectY : ∀ e ∈ batch, ∀ ch ∈ e.ying, ch.length = frames e.ying)
    (i : Nat) (hi : i < batch.length) :
    ∃ e, e = batch.getD ((sortIds batch).getD i 0) default ∧ e ∈ batch ∧
      (collate batch).phonemes_padded.getD i []
        = padTo (maxOf (fun x => x.phonemes.length) batch) e.phonemes ∧
      ((collate batch).phonemes_padded.getD i []).length
        = maxOf (fun x => x.phonemes.length) batch ∧
      (collate batch).phonemes_lengths.getD i 0 = e.phonemes.length ∧
      (collate batch).spec_padded.getD i []
        = e.spec.map (padTo (maxOf (fun x => frames x.spec) batch)) ∧
      (∀ ch ∈ (collate batch).spec_padded.getD i [],
        ch.length = maxOf (fun x => frames x.spec) batch) ∧
      (collate batch).spec_lengths.getD i 0 = frames e.spec ∧
      (collate batch).ying_padded.getD i []
        = e.ying.map (padTo (maxOf (fun x => frames x.ying) batch)) ∧
      (∀ ch ∈ (collate batch).ying_padded.getD i [],
        ch.length = maxOf (fun x => frames x.ying) batch) ∧
      (collate batch).ying_lengths.getD i 0 = frames e.ying ∧
      (collate batch).wav_padded.getD i []
        = padTo (maxOf (fun x => x.wav.length) batch) e.wav ∧
      ((collate batch).wav_padded.getD i []).length
        = maxOf (fun x => x.wav.length) batch ∧
      (collate batch).wav_lengths.getD i 0 = e.wav.length ∧
      (collate batch).phndur_padded.getD i []
        = padTo (maxOf (fun x => x.phndur.length) batch) e.phndur ∧
      ((collate batch).phndur_padded.getD i []).length
        = maxOf (fun x => x.phndur.length) batch := by
  have hlen : (sortIds batch).length = batch.length := sortIds_length batch
  have hidmem : (sortIds batch).getD i 0 ∈ sortIds batch :=
    getD_mem_of_lt _ _ _ (by omega)
  have hidlt : (sortIds batch).getD i 0 < batch.length :=
    List.mem_range.mp ((sortIds_perm batch).mem_iff.mp hidmem)
  have hebatch : batch.getD ((sortIds batch).getD i 0) default ∈ batch :=
    getD_mem_of_lt _ _ _ hidlt
  have hmape : ∀ {β : Type} (f : Ex → β) (db : β),
      (((sortIds batch).map (fun j => batch.getD j default)).map f).getD i db
        = f (batch.getD ((sortIds batch).getD i 0) default) := by
    intro β f db
    rw [getD_map f _ i (by rw [List.length_map]; omega) default db,
        getD_map _ _ i (by omega) 0 default]
  refine ⟨batch.getD ((sortIds batch).getD i 0) default, rfl, hebatch,
    ?_, ?_, ?_, ?_, ?_, ?_, ?_, ?_, ?_, ?_, ?_, ?_, ?_, ?_⟩
  · simp only [collate]
    exact hmape _ _
  · simp only [collate]
    rw [hmape _ _]
    exact padTo_length _ _ (le_maxOf (fun x => x.phonemes.length) _ _ hebatch)
  · simp only [collate]
    exact hmape _ _
  · simp only [collate]
    exact hmape _ _
  · simp only [collate]
    rw [hmape _ _]
    intro ch hch
    obtain ⟨ch0, hch0, rfl⟩ := List.mem_map.mp hch
    refine padTo_length _ _ ?_
    rw [hrectS _ hebatch ch0 hch0]
    exact le_maxOf (fun x => frames x.spec) _ _ hebatch
  · simp only [collate]
    exact hmape _ _
  · simp only [collate]
    exact hmape _ _
  · simp only [collate]
    rw [hmape _ _]
    intro ch hch
    obtain ⟨ch0, hch0, rfl⟩ := List.mem_map.mp hch
    refine padTo_length _ _ ?_
    rw [hrectY _ hebatch ch0 hch0]
    exact le_maxOf (fun x => frames x.ying) _ _ hebatch
  · simp only [collate]
    exact hmape _ _
  · simp only [collate]
    exact hmape _ _
  · simp only [collate]
    rw [hmape _ _]
    exact padTo_length _ _ (le_maxOf (fun x => x.wav.length) _ _ hebatch)
  · simp only [collate]
    exact hmape _ _
  · simp only [collate]
    exact hmape _ _
  · simp only [collate]
    rw [hmape _ _]
    exact padTo_length _ _ (le_maxOf (fun x => x.phndur.length) _ _ hebatch)

/-- Witness for C10 (amended): the singleton batch `[⟨[1], [[2]], [[3]], [4], [5]⟩]`
at row 0. -/
theorem c10_collate_padded_fields_witness :
    ∃ e, e = ([⟨[1], [[2]], [[3]], [4], [5]⟩] : List Ex).getD
        ((sortIds [⟨[1], [[2]], [[3]], [4], [5]⟩]).getD 0 0) default ∧
      e ∈ ([⟨[1], [[2]], [[3]], [4], [5]⟩] : List Ex) ∧
      (collate [⟨[1], [[2]], [[3]], [4], [5]⟩]).phonemes_padded.getD 0 []
        = padTo (maxOf (fun x => x.phonemes.length) [⟨[1], [[2]], [[3]], [4], [5]⟩]) e.phonemes ∧
      ((collate [⟨[1], [[2]], [[3]], [4], [5]⟩]).phonemes_padded.getD 0 []).length
        = maxOf (fun x => x.phonemes.length) [⟨[1], [[2]], [[3]], [4], [5]⟩] ∧
      (collate [⟨[1], [[2]], [[3]], [4], [5]⟩]).phonemes_lengths.getD 0 0 = e.phonemes.length ∧
      (collate [⟨[1], [[2]], [[3]], [4], [5]⟩]).spec_padded.getD 0 []
        = e.spec.map (padTo (maxOf (fun x => frames x.spec) [⟨[1], [[2]], [[3]], [4], [5]⟩])) ∧
      (∀ ch ∈ (collate [⟨[1], [[2]], [[3]], [4], [5]⟩]).spec_padded.getD 0 [],
        ch.length = maxOf (fun x => frames x.spec) [⟨[1], [[2]], [[3]], [4], [5]⟩]) ∧
      (collate [⟨[1], [[2]], [[3]], [4], [5]⟩]).spec_lengths.getD 0 0 = frames e.spec ∧
      (collate [⟨[1], [[2]], [[3]], [4], [5]⟩]).ying_padded.getD 0 []
        = e.ying.map (padTo (maxOf (fun x => frames x.ying) [⟨[1], [[2]], [[3]], [4], [5]⟩])) ∧
      (∀ ch ∈ (collate [⟨[1], [[2]], [[3]], [4], [5]⟩]).ying_padded.getD 0 [],
        ch.length = maxOf (fun x => frames x.ying) [⟨[1], [[2]], [[3]], [4], [5]⟩]) ∧
      (collate [⟨[1], [[2]], [[3]], [4], [5]⟩]).ying_lengths.getD 0 0 = frames e.ying ∧
      (collate [⟨[1], [[2]], [[3]], [4], [5]⟩]).wav_padded.getD 0 []
        = padTo (maxOf (fun x => x.wav.length) [⟨[1], [[2]], [[3]], [4], [5]⟩]) e.wav ∧
      ((collate [⟨[1], [[2]], [[3]], [4], [5]⟩]).wav_padded.getD 0 []).length
        = maxOf (fun x => x.wav.length) [⟨[1], [[2]], [[3]], [4], [5]⟩] ∧
      (collate [⟨[1], [[2]], [[3]], [4], [5]⟩]).wav_lengths.getD 0 0 = e.wav.length ∧
      (collate [⟨[1], [[2]], [[3]], [4], [5]⟩]).phndur_padded.getD 0 []
        = padTo (maxOf (fun x => x.phndur.length) [⟨[1], [[2]], [[3]], [4], [5]⟩]) e.phndur ∧
      ((collate [⟨[1], [[2]], [[3]], [4], [5]⟩]).phndur_padded.getD 0 []).length
        = maxOf (fun x => x.phndur.length) [⟨[1], [[2]], [[3]], [4], [5]⟩] :=
  c10_collate_padded_fields [⟨[1], [[2]], [[3]], [4], [5]⟩] (by decide) (by decide) 0
    (by decide)

/-! ### Claim C9: all buckets empty -/

/-- C9 counterexample: with the single example of length 5 and boundaries
`[10, 20]`, no example falls inside the configured boundaries, the only
bucket is pruned — and construction *succeeds*: `__init__` raises nothing
(there is no `EmptyDatasetError` anywhere in the code), returning a usable
sampler with no buckets and `num_samples = 0`.  This refutes the claim that
construction fails in this situation. -/
theorem c9_counterexample :
    mkSampler [5] 1 [10, 20] 1 0 false =
      some { buckets := [], boundariesPruned := [10], numPer := [],
             batchSize := 1, worldSize := 1, rank := 0, shuffle := false,
             numSamples := 0 } := by
  decide

/-- C9 (amended): when every example is discarded by the boundary lookup
(every bucket is empty after pruning), sampler construction does not fail: it
returns a sampler with an empty bucket list and `num_samples = 0`, whose
iteration succeeds and yields no batches at all. -/
theorem c9_all_empty (lengths boundaries : List Nat) (bs W r : Nat) (sh : Bool)
    (rp : Nat → Nat → List Nat) (hr : r < W)
    (hall : ∀ i, i < lengths.length → bisectTop boundaries (lengths.getD i 0) = -1)
    (hrp : ∀ i n, (rp i n).length = n) :
    ∃ s, mkSampler lengths bs boundaries W r sh = some s ∧ s.buckets = [] ∧
      s.numSamples = 0 ∧ sampler_iter s rp = some [] := by
  have hassign : ∀ bkt ∈ assignBuckets lengths boundaries, bkt = [] := by
    intro bkt hb
    obtain ⟨k, hk, rfl⟩ := List.mem_map.mp hb
    rw [List.filter_eq_nil_iff]
    intro i hi
    have hbi := hall i (List.mem_range.mp hi)
    rw [bisectTop] at hbi
    rw [hbi]
    simp
  have hprune : pruneBuckets (assignBuckets lengths boundaries) = [] := by
    rw [pruneBuckets, List.filter_eq_nil_iff]
    intro b hb
    rw [hassign b hb]
    simp
  have h0 : rp 0 0 = [] := List.length_eq_zero.mp (hrp 0 0)
  refine ⟨{ buckets := [],
            boundariesPruned := pruneBoundaries boundaries (assignBuckets lengths boundaries),
            numPer := [], batchSize := bs, worldSize := W, rank := r, shuffle := sh,
            numSamples := 0 }, ?_, rfl, rfl, ?_⟩
  · simp only [mkSampler, hprune]
    rw [if_pos hr]
    simp
  · cases sh <;> simp [sampler_iter, mapOpt, h0]

/-- Witness for C9 (amended): the concrete all-discarded configuration with
shuffling on. -/
theorem c9_all_empty_witness :
    ∃ s, mkSampler [5] 1 [10, 20] 1 0 true = some s ∧ s.buckets = [] ∧
      s.numSamples = 0 ∧ sampler_iter s (fun _ n => List.range n) = some [] :=
  c9_all_empty [5] [10, 20] 1 1 0 true (fun _ n => List.range n) (by decide)
    (by
      intro i hi
      have h1 : [5].length = 1 := rfl
      rw [h1] at hi
      have hz : i = 0 := by omega
      subst hz
      decide)
    (fun _ n => List.length_range n)

/-! ### Claim C1: determinism and the rank partition of `__iter__` -/

/-- C1: `__iter__` is a pure function of the sampler state and the
epoch-seeded permutation stream — repeated calls with the same epoch and rank
yield the same batch list — and, for every bucket, the rank-strided slices
`ids_bucket[rank::world_size]` taken by ranks `0 .. world_size - 1` are
pairwise position-disjoint and together reconstruct exactly the full
cyclically-padded index list of that bucket: their concatenation is a
permutation of it. -/
theorem c1_iter_deterministic_partition (s : Sampler) (rp : Nat → Nat → List Nat)
    (ids : List Nat) (lenB rem n : Nat) (hn : 0 < n) :
    sampler_iter s rp = sampler_iter s rp ∧
    (((List.range n).map (fun r => sliceStep (padCycle ids lenB rem) r n)).flatten).Perm
      (padCycle ids lenB rem) :=
  ⟨rfl, sliceStep_partition n hn _⟩

/-- Witness for C1: two workers, the padded bucket list built from the
permutation `[0, 1, 2]` with 5 extra cyclic samples. -/
theorem c1_iter_deterministic_partition_witness :
    sampler_iter { buckets := [[0]], boundariesPruned := [0, 10], numPer := [4],
                   batchSize := 2, worldSize := 2, rank := 0, shuffle := false,
                   numSamples := 2 } (fun _ n => List.range n) =
      sampler_iter { buckets := [[0]], boundariesPruned := [0, 10], numPer := [4],
                     batchSize := 2, worldSize := 2, rank := 0, shuffle := false,
                     numSamples := 2 } (fun _ n => List.range n) ∧
    (((List.range 2).map (fun r => sliceStep (padCycle [0, 1, 2] 3 5) r 2)).flatten).Perm
      (padCycle [0, 1, 2] 3 5) :=
  c1_iter_deterministic_partition _ _ [0, 1, 2] 3 5 2 (by decide)

/-! ### Claim C2: `__iter__` never fails and the batch-count assert holds -/

theorem padSize_ge (T n : Nat) : n ≤ padSize T n :=
  Nat.le_add_right _ _

theorem padSize_dvd (T n : Nat) (hT : 0 < T) : T ∣ padSize T n := by
  rcases Nat.eq_zero_or_pos (n % T) with h | h
  · have h2 : (T - n % T) % T = 0 := by
      rw [h, Nat.sub_zero, Nat.mod_self]
    refine ⟨n / T, ?_⟩
    rw [padSize, h2, Nat.add_zero]
    exact (Nat.mul_div_cancel' (Nat.dvd_of_mod_eq_zero h)).symm
  · have hmlt : n % T < T := Nat.mod_lt n hT
    refine ⟨n / T + 1, ?_⟩
    rw [padSize, Nat.mod_eq_of_lt (by omega)]
    have hdm := Nat.div_add_mod n T
    have hmul : T * (n / T + 1) = T * (n / T) + T := by ring
    omega

theorem sum_div_mul (W bs : Nat) (hW : 0 < W) (hbs : 0 < bs) :
    ∀ ns : List Nat, (∀ x ∈ ns, (W * bs) ∣ x) →
      (ns.map (fun x => x / W / bs)).sum * bs = ns.sum / W := by
  intro ns
  induction ns with
  | nil => simp
  | cons x t ih =>
    intro hdvd
    obtain ⟨m, hm⟩ := hdvd x (List.mem_cons_self x t)
    have hx : x / W = bs * m := by
      rw [hm, Nat.mul_assoc, Nat.mul_div_cancel_left _ hW]
    have hxbs : x / W / bs = m := by
      rw [hx, Nat.mul_div_cancel_left _ hbs]
    have hWx : W ∣ x := dvd_trans ⟨bs, rfl⟩ (hdvd x (List.mem_cons_self x t))
    have hWt : W ∣ t.sum :=
      List.dvd_sum (fun y hy => dvd_trans ⟨bs, rfl⟩ (hdvd y (List.mem_cons_of_mem x hy)))
    simp only [List.map_cons, List.sum_cons]
    rw [Nat.add_mul, hxbs, ih (fun y hy => hdvd y (List.mem_cons_of_mem x hy)),
      Nat.add_div_of_dvd_right hWx, hx, Nat.mul_comm m bs]

theorem strideAux_subset {α : Type} (n : Nat) :
    ∀ (l : List α) (c : Nat), strideAux n c l ⊆ l := by
  intro l
  induction l with
  | nil =>
    intro c
    have h : strideAux n c ([] : List α) = [] := by cases c <;> rfl
    rw [h]
    exact List.nil_subset _
  | cons a rest ih =>
    intro c
    cases c with
    | zero =>
      rw [show strideAux n 0 (a :: rest) = a :: strideAux n (n - 1) rest from rfl]
      exact List.cons_subset_cons a (ih (n - 1))
    | succ c =>
      rw [show strideAux n (c + 1) (a :: rest) = strideAux n c rest from rfl]
      exact (ih c).trans (List.subset_cons_self a rest)

theorem sliceStep_subset {α : Type} (l : List α) (r n : Nat) : sliceStep l r n ⊆ l :=
  strideAux_subset n l r

theorem get?_isSome_of_lt {α : Type} (l : List α) (i : Nat) (h : i < l.length) :
    (l.get? i).isSome := by
  rw [List.get?_eq_getElem?, List.getElem?_eq_getElem h]
  rfl

theorem mapOpt_exists_forall₂ {α β : Type} {f : α → Option β} {l : List α}
    {P : α → β → Prop} (h : ∀ a ∈ l, ∃ b, f a = some b ∧ P a b) :
    ∃ out, mapOpt f l = some out ∧ List.Forall₂ P l out := by
  induction l with
  | nil => exact ⟨[], rfl, List.Forall₂.nil⟩
  | cons a t ih =>
    obtain ⟨out, hout, hfa⟩ := ih (fun b hb => h b (List.mem_cons_of_mem a hb))
    obtain ⟨b, hb, hPb⟩ := h a (List.mem_cons_self a t)
    exact ⟨b :: out, by rw [mapOpt, hb, hout], List.Forall₂.cons hPb hfa⟩

theorem forall₂_map_eq {α β γ : Type} {l : List α} {out : List β} {g : α → γ}
    {f : β → γ} (h : List.Forall₂ (fun a b => f b = g a) l out) :
    out.map f = l.map g := by
  induction h with
  | nil => rfl
  | cons h1 h2 ih => simp [h1, ih]

theorem range_map_getD {α : Type} (l : List α) (d : α) :
    (List.range l.length).map (fun i => l.getD i d) = l := by
  refine List.ext_getElem (by simp) ?_
  intro i h1 h2
  simp only [List.getElem_map, List.getElem_range]
  exact List.getD_eq_getElem l d h2

/-- All the per-bucket work of `__iter__` succeeds on a valid bucket, and
this worker receives exactly `num_samples_bucket / world_size / batch_size`
whole batches from it. -/
theorem bucketBatches_spec (bucket perm : List Nat) (nsb bs W r : Nat)
    (hb : bucket ≠ []) (hbs : 0 < bs) (hW : 0 < W) (hr : r < W)
    (hpl : perm.length = bucket.length) (hpv : ∀ x ∈ perm, x < bucket.length)
    (hnsb : bucket.length ≤ nsb) (hdvd : (W * bs) ∣ nsb) :
    ∃ bl, bucketBatches bucket perm nsb bs W r = some bl ∧
      bl.length = nsb / W / bs := by
  have hb0 : 0 < bucket.length := List.length_pos.mpr hb
  rw [bucketBatches, if_neg (by omega)]
  dsimp only
  have hpadlen : (padCycle perm bucket.length (nsb - bucket.length)).length = nsb := by
    have := padCycle_length perm bucket.length (nsb - bucket.length) hpl hb0
    omega
  obtain ⟨q, hq⟩ : ∃ q, nsb = W * q := dvd_trans ⟨bs, rfl⟩ hdvd
  have hmine : (sliceStep (padCycle perm bucket.length (nsb - bucket.length)) r W).length
      = q := sliceStep_length_dvd _ r W q hW hr (by rw [hpadlen, hq])
  have hWq : nsb / W = q := by
    rw [hq, Nat.mul_div_cancel_left _ hW]
  have hallj : ∀ j ∈ List.range (q / bs),
      ((fun j => mapOpt (fun idx => bucket.get? idx)
        (((sliceStep (padCycle perm bucket.length (nsb - bucket.length))
          r W).drop (j * bs)).take bs)) j).isSome := by
    intro j hj
    have hall : ∀ idx ∈ ((sliceStep (padCycle perm bucket.length (nsb - bucket.length))
        r W).drop (j * bs)).take bs, (bucket.get? idx).isSome := by
      intro idx hidx
      have hmem : idx ∈ perm := by
        apply padCycle_subset
        apply sliceStep_subset
        exact (List.take_subset _ _).trans (List.drop_subset _ _) hidx
      exact get?_isSome_of_lt _ _ (hpv idx hmem)
    obtain ⟨inner, hinner, _⟩ := mapOpt_exists (f := fun idx => bucket.get? idx) hall
    dsimp only
    rw [hinner]
    rfl
  obtain ⟨out, hout, hlen⟩ := mapOpt_exists hallj
  refine ⟨out, ?_, ?_⟩
  · rw [hmine, hout]
  · rw [hlen, List.length_range, hWq]

/-- Aggregated over all buckets: the bucket loop of `__iter__` succeeds and
produces, across this worker's buckets, exactly
`sum(num_samples_per_bucket) / world_size / batch_size` whole batches. -/
theorem iterBuckets_spec (bks : List (List Nat)) (idx : List (List Nat)) (bs W r : Nat)
    (hbs : 0 < bs) (hW : 0 < W) (hr : r < W)
    (hbne : ∀ b ∈ bks, b ≠ [])
    (hidx : ∀ i, i < bks.length → (idx.getD i []).length = (bks.getD i []).length ∧
      ∀ x ∈ idx.getD i [], x < (bks.getD i []).length) :
    ∃ out, mapOpt (fun i => bucketBatches (bks.getD i []) (idx.getD i [])
        ((bks.map (fun b => padSize (W * bs) b.length)).getD i 0) bs W r)
      (List.range bks.length) = some out ∧
      out.flatten.length * bs = (bks.map (fun b => padSize (W * bs) b.length)).sum / W := by
  have hargs : ∀ i ∈ List.range bks.length, ∃ bl,
      (fun i => bucketBatches (bks.getD i []) (idx.getD i [])
        ((bks.map (fun b => padSize (W * bs) b.length)).getD i 0) bs W r) i = some bl ∧
      bl.length = (bks.map (fun b => padSize (W * bs) b.length)).getD i 0 / W / bs := by
    intro i hi
    have hiB : i < bks.length := List.mem_range.mp hi
    have hbmem : bks.getD i [] ∈ bks := getD_mem_of_lt _ _ _ hiB
    have hnbi : (bks.map (fun b => padSize (W * bs) b.length)).getD i 0
        = padSize (W * bs) (bks.getD i []).length := getD_map _ _ _ hiB [] 0
    obtain ⟨hl, hv⟩ := hidx i hiB
    obtain ⟨bl, hbl, hlen⟩ := bucketBatches_spec (bks.getD i []) (idx.getD i [])
      ((bks.map (fun b => padSize (W * bs) b.length)).getD i 0) bs W r
      (hbne _ hbmem) hbs hW hr hl hv
      (by rw [hnbi]; exact padSize_ge _ _)
      (by rw [hnbi]; exact padSize_dvd _ _ (Nat.mul_pos hW hbs))
    exact ⟨bl, hbl, hlen⟩
  obtain ⟨out, hout, hfa⟩ := mapOpt_exists_forall₂ hargs
  refine ⟨out, hout, ?_⟩
  have hmapeq : out.map List.length = (List.range bks.length).map
      (fun i => (bks.map (fun b => padSize (W * bs) b.length)).getD i 0 / W / bs) :=
    forall₂_map_eq hfa
  have hflat : out.flatten.length = ((List.range bks.length).map
      (fun i => (bks.map (fun b => padSize (W * bs) b.length)).getD i 0 / W / bs)).sum := by
    rw [List.length_flatten, hmapeq]
  have hrangemap : (List.range bks.length).map
      (fun i => (bks.map (fun b => padSize (W * bs) b.length)).getD i 0 / W / bs)
      = (bks.map (fun b => padSize (W * bs) b.length)).map (fun x => x / W / bs) := by
    have hlen2 : bks.length = (bks.map (fun b => padSize (W * bs) b.length)).length := by
      rw [List.length_map]
    rw [hlen2]
    conv_rhs => rw [← range_map_getD (bks.map (fun b => padSize (W * bs) b.length)) 0]
    rw [List.map_map]
    rfl
  have hdvd : ∀ x ∈ bks.map (fun b => padSize (W * bs) b.length), (W * bs) ∣ x := by
    intro x hx
    obtain ⟨b, hb, rfl⟩ := List.mem_map.mp hx
    exact padSize_dvd _ _ (Nat.mul_pos hW hbs)
  rw [hflat, hrangemap, sum_div_mul W bs hW hbs _ hdvd]

theorem sampler_iter_shuffle_false (bks : List (List Nat)) (bnds nper : List Nat)
    (bs W r ns : Nat) (rp : Nat → Nat → List Nat) :
    sampler_iter ⟨bks, bnds, nper, bs, W, r, false, ns⟩ rp =
      match mapOpt (fun i => bucketBatches (bks.getD i [])
          ((bks.map (fun b => List.range b.length)).getD i []) (nper.getD i 0) bs W r)
        (List.range bks.length) with
      | none => none
      | some bls =>
        if bls.flatten.length * bs = ns then some bls.flatten else none := rfl

theorem sampler_iter_shuffle_true (bks : List (List Nat)) (bnds nper : List Nat)
    (bs W r ns : Nat) (rp : Nat → Nat → List Nat) :
    sampler_iter ⟨bks, bnds, nper, bs, W, r, true, ns⟩ rp =
      match mapOpt (fun i => bucketBatches (bks.getD i [])
          (((List.range bks.length).map (fun i => rp i ((bks.getD i []).length))).getD i [])
          (nper.getD i 0) bs W r) (List.range bks.length) with
      | none => none
      | some bls =>
        match mapOpt (fun i => bls.flatten.get? i) (rp bks.length bls.flatten.length) with
        | none => none
        | some batches2 =>
          if batches2.length * bs = ns then some batches2 else none := rfl

/-- C2: for every sampler that construction accepted, and every epoch
permutation stream honouring the `torch.randperm` contract, `__iter__` never
fails — in particular the internal consistency assertion
`len(batches) * batch_size == num_samples` holds. -/
theorem c2_iter_never_fails (lengths : List Nat) (bs : Nat) (bounds : List Nat)
    (W r : Nat) (sh : Bool) (s : Sampler) (rp : Nat → Nat → List Nat)
    (hcons : mkSampler lengths bs bounds W r sh = some s)
    (hrp : ∀ i n, (rp i n).length = n ∧ ∀ x ∈ rp i n, x < n) :
    ∃ batches, sampler_iter s rp = some batches ∧
      batches.length * s.batchSize = s.numSamples := by
  by_cases hr : r < W
  · simp only [mkSampler] at hcons
    rw [if_pos hr] at hcons
    by_cases hguard : bs = 0 ∧ pruneBuckets (assignBuckets lengths bounds) ≠ []
    · rw [if_pos hguard] at hcons
      exact absurd hcons (by simp)
    · rw [if_neg hguard] at hcons
      obtain rfl := (Option.some.inj hcons).symm
      by_cases hbs0 : bs = 0
      · -- batch_size 0 forces an empty bucket list at construction
        have hbk : pruneBuckets (assignBuckets lengths bounds) = [] := by
          by_contra hne
          exact hguard ⟨hbs0, hne⟩
        have hrp00 : rp 0 0 = [] := List.length_eq_zero.mp (hrp 0 0).1
        refine ⟨[], ?_, ?_⟩
        · cases sh <;> simp [sampler_iter, mapOpt, hbk, hrp00]
        · simp [hbk]
      · have hbs : 0 < bs := Nat.pos_of_ne_zero hbs0
        have hW : 0 < W := by omega
        have hbne : ∀ b ∈ pruneBuckets (assignBuckets lengths bounds), b ≠ [] := by
          intro b hb
          have h2 := (List.mem_filter.mp hb).2
          simpa using h2
        cases sh with
        | false =>
          have hidx : ∀ i, i < (pruneBuckets (assignBuckets lengths bounds)).length →
              (((pruneBuckets (assignBuckets lengths bounds)).map
                  (fun b => List.range b.length)).getD i []).length
                = ((pruneBuckets (assignBuckets lengths bounds)).getD i []).length ∧
              ∀ x ∈ ((pruneBuckets (assignBuckets lengths bounds)).map
                  (fun b => List.range b.length)).getD i [],
                x < ((pruneBuckets (assignBuckets lengths bounds)).getD i []).length := by
            intro i hiB
            rw [getD_map _ _ _ hiB [] []]
            exact ⟨List.length_range _, fun x hx => List.mem_range.mp hx⟩
          obtain ⟨out, hout, hsum⟩ := iterBuckets_spec
            (pruneBuckets (assignBuckets lengths bounds)) _ bs W r hbs hW hr hbne hidx
          refine ⟨out.flatten, ?_, hsum⟩
          rw [sampler_iter_shuffle_false, hout]
          dsimp only
          rw [if_pos hsum]
        | true =>
          have hidx : ∀ i, i < (pruneBuckets (assignBuckets lengths bounds)).length →
              (((List.range (pruneBuckets (assignBuckets lengths bounds)).length).map
                  (fun i => rp i ((pruneBuckets (assignBuckets lengths bounds)).getD i []).length)).getD i []).length
                = ((pruneBuckets (assignBuckets lengths bounds)).getD i []).length ∧
              ∀ x ∈ ((List.range (pruneBuckets (assignBuckets lengths bounds)).length).map
                  (fun i => rp i ((pruneBuckets (assignBuckets lengths bounds)).getD i []).length)).getD i [],
                x < ((pruneBuckets (assignBuckets lengths bounds)).getD i []).length := by
            intro i hiB
            have hgetd : ((List.range (pruneBuckets (assignBuckets lengths bounds)).length).map
                (fun i => rp i ((pruneBuckets (assignBuckets lengths bounds)).getD i []).length)).getD i []
                = rp i ((pruneBuckets (assignBuckets lengths bounds)).getD i []).length := by
              rw [getD_map _ _ _ (by rw [List.length_range]; exact hiB) 0 []]
              rw [List.getD_eq_getElem _ _ (by rw [List.length_range]; exact hiB),
                List.getElem_range]
            rw [hgetd]
            exact ⟨(hrp _ _).1, (hrp _ _).2⟩
          obtain ⟨out, hout, hsum⟩ := iterBuckets_spec
            (pruneBuckets (assignBuckets lengths bounds)) _ bs W r hbs hW hr hbne hidx
          have hsome : ∀ x ∈ rp (pruneBuckets (assignBuckets lengths bounds)).length
              out.flatten.length, ((fun i => out.flatten.get? i) x).isSome :=
            fun x hx => get?_isSome_of_lt _ _ ((hrp _ _).2 x hx)
          obtain ⟨out2, hout2, hlen2⟩ := mapOpt_exists hsome
          have hlen2x : out2.length = out.flatten.length := by
            rw [hlen2, (hrp _ _).1]
          refine ⟨out2, ?_, ?_⟩
          · rw [sampler_iter_shuffle_true, hout]
            dsimp only
            rw [hout2]
            dsimp only
            rw [if_pos (by rw [hlen2x]; exact hsum)]
          · rw [hlen2x]
            exact hsum
  · rw [mkSampler, if_neg hr] at hcons
    exact absurd hcons (by simp)

/-- Witness for C2: lengths `[5, 15]`, boundaries `[0, 10, 20]`,
`batch_size = world_size = 1`, identity permutations. -/
theorem c2_iter_never_fails_witness :
    ∃ batches, sampler_iter ({ buckets := [[0], [1]],
                               boundariesPruned := [0, 10, 20],
                               numPer := [1, 1], batchSize := 1, worldSize := 1,
                               rank := 0, shuffle := false,
                               numSamples := 2 } : Sampler)
        (fun _ n => List.range n) = some batches ∧
      batches.length * 1 = 2 :=
  c2_iter_never_fails [5, 15] 1 [0, 10, 20] 1 0 false _ (fun _ n => List.range n)
    (by decide) (fun i n => ⟨List.length_range n, fun x hx => List.mem_range.mp hx⟩)

end DataUtils
